import Mathlib

/-!
Shallow embedding of `src/scripts/ghidra_export.py`: a Ghidra headless script
that exports a program's initialized `ram` memory blocks (hex-encoded, in
64 KiB chunks) and its function symbols into a `<decompilertest>` XML fixture,
together with one `<script>`/`<stringmatch>` pair per non-thunk, non-external
function.

The host program model (architecture identifiers, memory blocks, byte reads,
function table) is embedded as the `Program` structure; host memory is a total
function `Nat → Nat` from absolute address to byte value.  The script's output
is modelled as the list of text lines it appends to its `xml` list, plus the
skip diagnostics it prints.
-/

namespace GhidraExport

/-- A memory block of the host program model: `block.getName()`,
`block.getStart()` (absolute offset), the name of the address space of the
start address, `block.isInitialized()`, and `int(block.getSize())`. -/
structure MemBlock where
  name : String
  start : Nat
  spaceName : String
  isInitialized : Bool
  size : Nat
deriving DecidableEq

/-- A function of the host program model: `f.getName()`,
`f.getEntryPoint().getOffset()`, `f.isThunk()`, `f.isExternal()`. -/
structure FunctionEntry where
  name : String
  entryOffset : Nat
  isThunk : Bool
  isExternal : Bool
deriving DecidableEq

/-- The read-only program handle: language id, compiler-spec id, the memory
block list in host iteration order, the function list in host iteration order
(`fm.getFunctions(True)`), and the byte-read primitive (`mem.getBytes`). -/
structure Program where
  langId : String
  cspecId : String
  blocks : List MemBlock
  funcs : List FunctionEntry
  memBytes : Nat → Nat

/-- `arch = "%s:%s" % (lang_id, cspec_id)`. -/
def arch (p : Program) : String := p.langId ++ ":" ++ p.cspecId

/-- `functions = [f for f in fm.getFunctions(True) if not f.isThunk() and not
f.isExternal()]`. -/
def functions (p : Program) : List FunctionEntry :=
  p.funcs.filter (fun f => !f.isThunk && !f.isExternal)

/-- The chunk bound: `CHUNK = 0x10000`. -/
def CHUNK : Nat := 0x10000

/-- One lowercase hexadecimal digit, as produced by Python's `%x` format. -/
def hexDigit (d : Nat) : Char :=
  Char.ofNat (if d < 10 then 48 + d else 87 + d)

/-- The two characters `'%02x' % (b & 0xff)` contributes for one byte `b`
(the Java byte is masked to `[0, 255]`, here `b % 256`). -/
def byteHexChars (b : Nat) : List Char :=
  [hexDigit (b % 256 / 16), hexDigit (b % 256 % 16)]

/-- `hex_str = ''.join(['%02x' % (b & 0xff) for b in data])`. -/
def hex_str (data : List Nat) : String :=
  String.mk (data.flatMap byteHexChars)

/-- `for i in range(0, len(hex_str), 64): xml.append(hex_str[i:i+64])` —
the 64-character line-wrapping of the hex text. -/
def wrap64 : List Char → List String
  | [] => []
  | c :: cs => String.mk ((c :: cs).take 64) :: wrap64 ((c :: cs).drop 64)
termination_by cs => cs.length
decreasing_by simp [List.length_drop]; omega

/-- Python's `'%x' % n` digit list (empty for `n = 0`). -/
def natHexAux (n : Nat) : List Char :=
  if n = 0 then [] else natHexAux (n / 16) ++ [hexDigit (n % 16)]
termination_by n
decreasing_by omega

/-- Python's `'%x' % n`: lowercase hexadecimal, no padding, `"0"` for zero. -/
def natHex (n : Nat) : String :=
  if n = 0 then "0" else String.mk (natHexAux n)

/-- The bytes `mem.getBytes(addr, data)` fills into an array of length
`len`: the `len` host bytes starting at absolute address `addr`. -/
def readChunk (memBytes : Nat → Nat) (addr len : Nat) : List Nat :=
  (List.range len).map (fun i => memBytes (addr + i))

/-- The `while offset < size` read loop: the sequence of
`(absolute chunk address, chunk bytes)` pairs it traverses, where each
iteration reads `chunk_size = min(CHUNK, size - offset)` bytes at
`start.add(offset)` and then advances `offset += chunk_size`. -/
def chunkLoop (memBytes : Nat → Nat) (start size offset : Nat) :
    List (Nat × List Nat) :=
  if offset < size then
    let chunk_size := min CHUNK (size - offset)
    (start + offset, readChunk memBytes (start + offset) chunk_size)
      :: chunkLoop memBytes start size (offset + chunk_size)
  else []
termination_by size - offset
decreasing_by simp [CHUNK]; omega

/-- The lines one loop iteration appends for chunk `c = (addr, data)`:
the `<bytechunk>` open tag (offset printed as `'0x%x' % addr.getOffset()`),
the 64-character hex lines, and the closing tag. -/
def bytechunkLines (c : Nat × List Nat) : List String :=
  ("<bytechunk space=\"ram\" offset=\"0x" ++ natHex c.1 ++ "\" readonly=\"true\">")
    :: (wrap64 (hex_str c.2).data ++ ["</bytechunk>"])

/-- A printed skip diagnostic: `"Skipping large block %s at %s (%d bytes)" %
(block.getName(), start, size)` — the block name, start address and size it
lists. -/
structure SkipDiag where
  name : String
  start : Nat
  size : Nat
deriving DecidableEq

/-- The body of `for block in mem.getBlocks():` — the `(lines appended,
diagnostics printed)` contribution of one block: skip uninitialized blocks,
skip non-`ram` spaces, skip (with a diagnostic) blocks larger than
`0x100000`, otherwise emit the chunk lines of the read loop. -/
def processBlock (memBytes : Nat → Nat) (b : MemBlock) :
    List String × List SkipDiag :=
  if b.isInitialized = false then ([], [])
  else if b.spaceName ≠ "ram" then ([], [])
  else if b.size > 0x100000 then
    ([], [{ name := b.name, start := b.start, size := b.size }])
  else ((chunkLoop memBytes b.start b.size 0).flatMap bytechunkLines, [])

/-- `'<symbol space="ram" offset="0x%x" name="%s"/>' %
(func.getEntryPoint().getOffset(), func.getName())`. -/
def symbolLine (f : FunctionEntry) : String :=
  "<symbol space=\"ram\" offset=\"0x" ++ natHex f.entryOffset ++ "\" name=\""
    ++ f.name ++ "\"/>"

/-- The functions the symbol loop emits a line for: `for func in
fm.getFunctions(True): if func.isExternal(): continue`. -/
def symbolFuncs (p : Program) : List FunctionEntry :=
  p.funcs.filter (fun f => !f.isExternal)

/-- The seven lines appended per function of `functions`: the `<script>`
block with its four commands, then the `<stringmatch>` assertion
(`min="1" max="100"`, content the function's name). -/
def scriptLines (f : FunctionEntry) : List String :=
  ["<script>",
   "  <com>lo fu " ++ f.name ++ "</com>",
   "  <com>decompile</com>",
   "  <com>print C</com>",
   "  <com>quit</com>",
   "</script>",
   "<stringmatch name=\"" ++ f.name ++ " output\" min=\"1\" max=\"100\">"
     ++ f.name ++ "</stringmatch>"]

/-- The `xml` list at the end of the script, built exactly as the source
appends to it: header tags, the block loop, the symbol loop, the
`</binaryimage>` tag, the script-block loop, the closing tag. -/
def xmlLines (p : Program) : List String :=
  let xml0 := ["<decompilertest>", "<binaryimage arch=\"" ++ arch p ++ "\">"]
  let xml1 := p.blocks.foldl (fun acc b => acc ++ (processBlock p.memBytes b).1) xml0
  let xml2 := p.funcs.foldl
    (fun acc f => if f.isExternal then acc else acc ++ [symbolLine f]) xml1
  let xml3 := xml2 ++ ["</binaryimage>"]
  let xml4 := (functions p).foldl (fun acc f => acc ++ scriptLines f) xml3
  xml4 ++ ["</decompilertest>"]

/-- The skip diagnostics printed during the block loop, in order. -/
def skipDiags (p : Program) : List SkipDiag :=
  p.blocks.foldl (fun acc b => acc ++ (processBlock p.memBytes b).2) []

/-- The final summary `"Wrote XML (%d lines, %d functions) to %s"`:
`(len(xml), len(functions))`. -/
def summary (p : Program) : Nat × Nat :=
  ((xmlLines p).length, (functions p).length)

/-- Value of one hexadecimal digit character (inverse of `hexDigit` on
lowercase hex digits); used to state the decode/round-trip laws. -/
def hexDigitVal (c : Char) : Nat :=
  if c ≤ '9' then c.toNat - 48 else c.toNat - 87

/-- Decoder of lowercase hex text back to bytes, two characters per byte;
used to state the decode/round-trip laws. -/
def hexDecode : List Char → List Nat
  | c1 :: c2 :: rest => (16 * hexDigitVal c1 + hexDigitVal c2) :: hexDecode rest
  | _ => []

/-- The original bytes of block `b`: the `b.size` host bytes from
`b.start`. -/
def blockBytes (memBytes : Nat → Nat) (b : MemBlock) : List Nat :=
  readChunk memBytes b.start b.size

/-- `Contiguous lo spans hi`: the `(offset, length)` spans exactly tile the
interval `[lo, hi)` in order — each span starts where the previous one ended,
has positive length, and the last one ends at `hi`.  This is the "no gaps, no
overlaps, full coverage" property. -/
def Contiguous : Nat → List (Nat × Nat) → Nat → Prop
  | lo, [], hi => lo = hi
  | lo, s :: rest, hi => s.1 = lo ∧ 0 < s.2 ∧ Contiguous (lo + s.2) rest hi

/-- The `(offset, length)` span of each emitted chunk. -/
def spansOf (cs : List (Nat × List Nat)) : List (Nat × Nat) :=
  cs.map (fun c => (c.1, c.2.length))

/-- `c` is a lowercase hexadecimal digit character. -/
def isLowerHexDigit (c : Char) : Bool :=
  "0123456789abcdef".data.contains c

/-! ### Concrete hosts used to instantiate the general theorems -/

/-- A concrete host memory: the byte at address `a` is `a % 256`. -/
def wMem : Nat → Nat := fun a => a % 256

/-- A small eligible block. -/
def wBlock : MemBlock :=
  { name := "data", start := 16, spaceName := "ram", isInitialized := true,
    size := 5 }

/-- An eligible block of size zero. -/
def wZeroBlock : MemBlock :=
  { name := "empty", start := 32, spaceName := "ram", isInitialized := true,
    size := 0 }

/-- An initialized `ram` block of 2 MiB, above the 1 MiB cap. -/
def wBigBlock : MemBlock :=
  { name := "big", start := 0, spaceName := "ram", isInitialized := true,
    size := 0x200000 }

/-- An initialized `ram` block of exactly 1 MiB. -/
def wCapBlock : MemBlock :=
  { name := "cap", start := 0, spaceName := "ram", isInitialized := true,
    size := 0x100000 }

/-- A non-external thunk. -/
def wThunk : FunctionEntry :=
  { name := "thk", entryOffset := 0, isThunk := true, isExternal := false }

/-- An external function. -/
def wExternal : FunctionEntry :=
  { name := "ext", entryOffset := 0, isThunk := false, isExternal := true }

/-- An ordinary (neither thunk nor external) function. -/
def wPlain : FunctionEntry :=
  { name := "foo", entryOffset := 0, isThunk := false, isExternal := false }

/-- A concrete program with one small block and one function of each kind. -/
def wProg : Program :=
  { langId := "x86:LE:32:default", cspecId := "gcc", blocks := [wBlock],
    funcs := [wPlain, wThunk, wExternal], memBytes := wMem }

/-- A program whose single function name contains characters that are
meaningful in the output text format (`<` and `>`). -/
def metaNameProg : Program :=
  { langId := "x86", cspecId := "gcc", blocks := [],
    funcs := [{ name := "a<b", entryOffset := 0, isThunk := false,
                isExternal := false }],
    memBytes := fun _ => 0 }

/-- A program with two functions whose names are empty (and therefore also
collide). -/
def emptyNameProg : Program :=
  { langId := "x86", cspecId := "gcc", blocks := [],
    funcs := [{ name := "", entryOffset := 0, isThunk := false,
                isExternal := false },
              { name := "", entryOffset := 0, isThunk := false,
                isExternal := false }],
    memBytes := fun _ => 0 }

/-! ### Basic lemmas about the chunk read loop -/

theorem readChunk_length (memBytes : Nat → Nat) (addr len : Nat) :
    (readChunk memBytes addr len).length = len := by
  simp [readChunk]

theorem readChunk_add (memBytes : Nat → Nat) (a m r : Nat) :
    readChunk memBytes a (m + r)
      = readChunk memBytes a m ++ readChunk memBytes (a + m) r := by
  simp only [readChunk, List.range_add, List.map_append, List.map_map]
  congr 1
  apply List.map_congr_left
  intro i _
  simp [Nat.add_assoc]

theorem chunkLoop_nil (memBytes : Nat → Nat) (start size offset : Nat) (h : size ≤ offset) :
    chunkLoop memBytes start size offset = [] := by
  rw [chunkLoop]
  simp [Nat.not_lt.mpr h]

theorem chunkLoop_cons (memBytes : Nat → Nat) (start size offset : Nat) (h : offset < size) :
    chunkLoop memBytes start size offset
      = (start + offset, readChunk memBytes (start + offset) (min CHUNK (size - offset)))
          :: chunkLoop memBytes start size (offset + min CHUNK (size - offset)) := by
  rw [chunkLoop]
  simp [h]

theorem chunkLoop_raw_concat (memBytes : Nat → Nat) (start size : Nat) :
    ∀ k offset, size - offset ≤ k →
      (chunkLoop memBytes start size offset).flatMap (fun c => c.2)
        = readChunk memBytes (start + offset) (size - offset) := by
  intro k
  induction k with
  | zero =>
    intro offset h
    rw [chunkLoop_nil memBytes start size offset (by omega)]
    simp [readChunk, show size - offset = 0 by omega]
  | succ k ih =>
    intro offset h
    by_cases hlt : offset < size
    · rw [chunkLoop_cons memBytes start size offset hlt]
      have hmin : 0 < min CHUNK (size - offset) := by
        simp only [CHUNK]; omega
      have hminle : min CHUNK (size - offset) ≤ size - offset := by omega
      rw [List.flatMap_cons,
        ih (offset + min CHUNK (size - offset)) (by simp only [CHUNK] at *; omega)]
      have haddr : start + (offset + min CHUNK (size - offset))
          = (start + offset) + min CHUNK (size - offset) := by omega
      rw [haddr, ← readChunk_add]
      congr 1
      omega
    · rw [chunkLoop_nil memBytes start size offset (by omega)]
      simp [readChunk, show size - offset = 0 by omega]

theorem chunkLoop_mem (memBytes : Nat → Nat) (start size : Nat) :
    ∀ k offset, size - offset ≤ k →
      ∀ c ∈ chunkLoop memBytes start size offset,
        start + offset ≤ c.1 ∧ 0 < c.2.length ∧ c.2.length ≤ CHUNK := by
  intro k
  induction k with
  | zero =>
    intro offset h c hc
    rw [chunkLoop_nil memBytes start size offset (by omega)] at hc
    cases hc
  | succ k ih =>
    intro offset h c hc
    by_cases hlt : offset < size
    · rw [chunkLoop_cons memBytes start size offset hlt] at hc
      rcases List.mem_cons.mp hc with hc1 | hc1
      · subst hc1
        refine ⟨Nat.le_refl _, ?_, ?_⟩
        · simp only [readChunk_length, CHUNK]
          omega
        · simp only [readChunk_length, CHUNK]
          omega
      · have := ih (offset + min CHUNK (size - offset))
          (by simp only [CHUNK] at *; omega) c hc1
        exact ⟨by omega, this.2.1, this.2.2⟩
    · rw [chunkLoop_nil memBytes start size offset (by omega)] at hc
      cases hc

theorem chunkLoop_pairwise (memBytes : Nat → Nat) (start size : Nat) :
    ∀ k offset, size - offset ≤ k →
      List.Pairwise (fun c d => c.1 < d.1) (chunkLoop memBytes start size offset) := by
  intro k
  induction k with
  | zero =>
    intro offset h
    rw [chunkLoop_nil memBytes start size offset (by omega)]
    exact List.Pairwise.nil
  | succ k ih =>
    intro offset h
    by_cases hlt : offset < size
    · rw [chunkLoop_cons memBytes start size offset hlt]
      refine List.Pairwise.cons ?_ (ih _ (by simp only [CHUNK] at *; omega))
      intro d hd
      have hmin : 0 < min CHUNK (size - offset) := by
        simp only [CHUNK]; omega
      have := (chunkLoop_mem memBytes start size (size - (offset + min CHUNK (size - offset)))
        (offset + min CHUNK (size - offset)) (Nat.le_refl _) d hd).1
      show start + offset < d.1
      omega
    · rw [chunkLoop_nil memBytes start size offset (by omega)]
      exact List.Pairwise.nil

theorem chunkLoop_contiguous (memBytes : Nat → Nat) (start size : Nat) :
    ∀ k offset, offset ≤ size → size - offset ≤ k →
      Contiguous (start + offset) (spansOf (chunkLoop memBytes start size offset))
        (start + size) := by
  intro k
  induction k with
  | zero =>
    intro offset hle h
    rw [chunkLoop_nil memBytes start size offset (by omega)]
    simp only [spansOf, List.map_nil, Contiguous]
    omega
  | succ k ih =>
    intro offset hle h
    by_cases hlt : offset < size
    · rw [chunkLoop_cons memBytes start size offset hlt]
      simp only [spansOf, List.map_cons]
      refine ⟨rfl, ?_, ?_⟩
      · simp only [readChunk_length, CHUNK]
        omega
      · have := ih (offset + min CHUNK (size - offset))
          (by omega) (by simp only [CHUNK] at *; omega)
        simp only [readChunk_length]
        simpa [Nat.add_assoc, spansOf] using this
    · rw [chunkLoop_nil memBytes start size offset (by omega)]
      simp only [spansOf, List.map_nil, Contiguous]
      omega

theorem chunkLoop_length_eq (memBytes : Nat → Nat) (start size : Nat) :
    ∀ k offset, size - offset ≤ k →
      (chunkLoop memBytes start size offset).length
        = (size - offset + CHUNK - 1) / CHUNK := by
  intro k
  induction k with
  | zero =>
    intro offset h
    rw [chunkLoop_nil memBytes start size offset (by omega)]
    simp only [List.length_nil, CHUNK]
    omega
  | succ k ih =>
    intro offset h
    by_cases hlt : offset < size
    · rw [chunkLoop_cons memBytes start size offset hlt]
      rw [List.length_cons,
        ih (offset + min CHUNK (size - offset)) (by simp only [CHUNK] at *; omega)]
      simp only [CHUNK]
      omega
    · rw [chunkLoop_nil memBytes start size offset (by omega)]
      simp only [List.length_nil, CHUNK]
      omega

/-! ### Hex encoding and decoding lemmas -/

theorem hexDigitVal_hexDigit (d : Nat) (h : d < 16) :
    hexDigitVal (hexDigit d) = d := by
  interval_cases d <;> decide

theorem isLowerHexDigit_hexDigit (d : Nat) (h : d < 16) :
    isLowerHexDigit (hexDigit d) = true := by
  interval_cases d <;> decide

theorem hexDecode_hex_str (data : List Nat) :
    hexDecode (hex_str data).data = data.map (· % 256) := by
  show hexDecode (data.flatMap byteHexChars) = data.map (· % 256)
  induction data with
  | nil => rfl
  | cons b rest ih =>
    rw [List.flatMap_cons]
    show hexDecode (hexDigit (b % 256 / 16) :: hexDigit (b % 256 % 16)
      :: rest.flatMap byteHexChars) = (b % 256) :: rest.map (· % 256)
    rw [hexDecode, ih,
      hexDigitVal_hexDigit (b % 256 / 16) (by omega),
      hexDigitVal_hexDigit (b % 256 % 16) (by omega)]
    congr 1
    omega

theorem hex_str_length (data : List Nat) :
    (hex_str data).data.length = 2 * data.length := by
  show (data.flatMap byteHexChars).length = 2 * data.length
  induction data with
  | nil => rfl
  | cons b rest ih =>
    rw [List.flatMap_cons, List.length_append, ih]
    simp [byteHexChars]
    omega

theorem hex_str_lower (data : List Nat) :
    ∀ c ∈ (hex_str data).data, isLowerHexDigit c = true := by
  show ∀ c ∈ data.flatMap byteHexChars, isLowerHexDigit c = true
  intro c hc
  rcases List.mem_flatMap.mp hc with ⟨b, _, hcb⟩
  simp only [byteHexChars, List.mem_cons, List.mem_singleton] at hcb
  rcases hcb with h | h | h
  · rw [h]; exact isLowerHexDigit_hexDigit _ (by omega)
  · rw [h]; exact isLowerHexDigit_hexDigit _ (by omega)
  · cases h

/-! ### Line wrapping lemmas -/

theorem wrap64_flatten :
    ∀ k (cs : List Char), cs.length ≤ k →
      ((wrap64 cs).map String.data).flatten = cs := by
  intro k
  induction k with
  | zero =>
    intro cs h
    have : cs = [] := List.length_eq_zero.mp (by omega)
    subst this
    rw [wrap64]
    rfl
  | succ k ih =>
    intro cs h
    match cs with
    | [] => rw [wrap64]; rfl
    | c :: cs =>
      rw [wrap64]
      simp only [List.map_cons, List.flatten_cons]
      rw [ih ((c :: cs).drop 64)
        (by simp only [List.length_drop, List.length_cons] at h ⊢; omega)]
      exact List.take_append_drop 64 (c :: cs)

theorem wrap64_line_length :
    ∀ k (cs : List Char), cs.length ≤ k →
      ∀ l ∈ wrap64 cs, l.length ≤ 64 := by
  intro k
  induction k with
  | zero =>
    intro cs h l hl
    have : cs = [] := List.length_eq_zero.mp (by omega)
    subst this
    rw [wrap64] at hl
    cases hl
  | succ k ih =>
    intro cs h l hl
    match cs with
    | [] => rw [wrap64] at hl; cases hl
    | c :: cs =>
      rw [wrap64] at hl
      rcases List.mem_cons.mp hl with h1 | h1
      · subst h1
        show ((c :: cs).take 64).length ≤ 64
        simp [List.length_take]
      · exact ih ((c :: cs).drop 64)
          (by simp only [List.length_drop, List.length_cons] at h ⊢; omega) l h1

theorem data_join (l : List String) :
    (String.join l).data = (l.map String.data).flatten := by
  have aux : ∀ (l : List String) (init : String),
      (l.foldl (fun r s => r ++ s) init).data
        = init.data ++ (l.map String.data).flatten := by
    intro l
    induction l with
    | nil => intro init; simp
    | cons s rest ih =>
      intro init
      simp only [List.foldl_cons, List.map_cons, List.flatten_cons, ih,
        String.data_append, List.append_assoc]
  show (l.foldl (fun r s => r ++ s) "").data = (l.map String.data).flatten
  rw [aux]
  rfl

theorem join_wrap64 (k : Nat) (cs : List Char) (h : cs.length ≤ k) :
    String.join (wrap64 cs) = String.mk cs := by
  apply String.ext_iff.mpr
  rw [data_join]
  exact wrap64_flatten k cs h

/-! ### Loop accumulation lemmas for the document builder -/

theorem foldl_append_flatMap {α β : Type} (f : α → List β) (l : List α)
    (init : List β) :
    l.foldl (fun acc x => acc ++ f x) init = init ++ l.flatMap f := by
  induction l generalizing init with
  | nil => simp
  | cons x xs ih => simp [List.flatMap_cons, ih]

theorem foldl_symbol_loop (l : List FunctionEntry) (init : List String) :
    l.foldl (fun acc f => if f.isExternal then acc else acc ++ [symbolLine f]) init
      = init ++ (l.filter (fun f => !f.isExternal)).map symbolLine := by
  induction l generalizing init with
  | nil => simp
  | cons f fs ih =>
    cases hf : f.isExternal <;>
      simp [List.filter_cons, hf, ih]

/-! ### Block processing and document decomposition lemmas -/

theorem processBlock_eligible (memBytes : Nat → Nat) (b : MemBlock)
    (hinit : b.isInitialized = true) (hspace : b.spaceName = "ram")
    (hsize : b.size ≤ 0x100000) :
    processBlock memBytes b
      = ((chunkLoop memBytes b.start b.size 0).flatMap bytechunkLines, []) := by
  simp [processBlock, hinit, hspace, Nat.not_lt.mpr hsize]

theorem processBlock_oversize (memBytes : Nat → Nat) (b : MemBlock)
    (hinit : b.isInitialized = true) (hspace : b.spaceName = "ram")
    (hbig : 0x100000 < b.size) :
    processBlock memBytes b
      = ([], [{ name := b.name, start := b.start, size := b.size }]) := by
  simp [processBlock, hinit, hspace, hbig]

theorem xmlLines_decomp (p : Program) :
    xmlLines p
      = ["<decompilertest>", "<binaryimage arch=\"" ++ arch p ++ "\">"]
        ++ p.blocks.flatMap (fun b => (processBlock p.memBytes b).1)
        ++ (symbolFuncs p).map symbolLine
        ++ ["</binaryimage>"]
        ++ (functions p).flatMap scriptLines
        ++ ["</decompilertest>"] := by
  simp only [xmlLines, foldl_append_flatMap, foldl_symbol_loop, symbolFuncs,
    List.append_assoc]

theorem skipDiags_decomp (p : Program) :
    skipDiags p = p.blocks.flatMap (fun b => (processBlock p.memBytes b).2) := by
  simp only [skipDiags, foldl_append_flatMap, List.nil_append]

/-! ### Decoded-chunk concatenation lemmas -/

theorem flatMap_decode (cs : List (Nat × List Nat)) :
    cs.flatMap (fun c => hexDecode (hex_str c.2).data)
      = (cs.flatMap (fun c => c.2)).map (· % 256) := by
  induction cs with
  | nil => rfl
  | cons c rest ih =>
    rw [List.flatMap_cons, List.flatMap_cons, hexDecode_hex_str, ih,
      List.map_append]

theorem readChunk_mod (memBytes : Nat → Nat) (hb : ∀ a, memBytes a < 256)
    (addr len : Nat) :
    (readChunk memBytes addr len).map (· % 256) = readChunk memBytes addr len := by
  simp only [readChunk, List.map_map]
  apply List.map_congr_left
  intro i _
  simp [Nat.mod_eq_of_lt (hb _)]

/-! ### Line-shape lemmas for the script section -/

theorem com_lo_fu_ne (n : String) :
    ("  <com>lo fu " ++ n ++ "</com>") ≠ "<script>" := by
  intro h
  have h2 : (("  <com>lo fu " ++ n ++ "</com>").data).take 1
      = ("<script>".data).take 1 := by rw [h]
  rw [String.data_append, String.data_append] at h2
  have h3 : ([' '] : List Char) = ['<'] := h2
  exact absurd h3 (by decide)

theorem stringmatch_ne (n : String) :
    ("<stringmatch name=\"" ++ n ++ " output\" min=\"1\" max=\"100\">" ++ n
        ++ "</stringmatch>") ≠ "<script>" := by
  intro h
  have h2 : (("<stringmatch name=\"" ++ n ++ " output\" min=\"1\" max=\"100\">" ++ n
      ++ "</stringmatch>").data).take 3 = ("<script>".data).take 3 := by rw [h]
  simp only [String.data_append] at h2
  have h3 : (['<', 's', 't'] : List Char) = ['<', 's', 'c'] := h2
  exact absurd h3 (by decide)

theorem scriptLines_count (f : FunctionEntry) :
    (scriptLines f).count "<script>" = 1 := by
  have h1 := com_lo_fu_ne f.name
  have h2 := stringmatch_ne f.name
  simp [scriptLines, List.count_cons, h1, h2]

theorem flatMap_scriptLines_count (l : List FunctionEntry) :
    (l.flatMap scriptLines).count "<script>" = l.length := by
  induction l with
  | nil => rfl
  | cons f fs ih =>
    rw [List.flatMap_cons, List.count_append, ih, scriptLines_count,
      List.length_cons]
    omega

/-! ### Filtered-view counting lemmas for the function table -/

theorem filter_thunk_lt (l : List FunctionEntry) (f : FunctionEntry)
    (hf : f ∈ l) (ht : f.isThunk = true) (he : f.isExternal = false) :
    (l.filter (fun g => !g.isThunk && !g.isExternal)).length
      < (l.filter (fun g => !g.isExternal)).length := by
  have hmono : ∀ (m : List FunctionEntry),
      (m.filter (fun g => !g.isThunk && !g.isExternal)).length
        ≤ (m.filter (fun g => !g.isExternal)).length := by
    intro m
    induction m with
    | nil => exact Nat.le_refl 0
    | cons g gs ihm =>
      by_cases hT : g.isThunk <;> by_cases hE : g.isExternal <;>
        simp only [List.filter_cons, hT, hE, Bool.not_true, Bool.not_false,
          Bool.false_and, Bool.true_and, if_true, if_false, Bool.false_eq_true,
          List.length_cons] <;>
        omega
  induction l with
  | nil => cases hf
  | cons g gs ih =>
    rcases List.mem_cons.mp hf with h | h
    · subst h
      simp only [List.filter_cons, ht, he, Bool.not_true, Bool.not_false,
        Bool.false_and, Bool.true_and, if_true, if_false, Bool.false_eq_true,
        List.length_cons]
      have := hmono gs
      omega
    · have hlt := ih h
      by_cases hT : g.isThunk <;> by_cases hE : g.isExternal <;>
        simp only [List.filter_cons, hT, hE, Bool.not_true, Bool.not_false,
          Bool.false_and, Bool.true_and, if_true, if_false, Bool.false_eq_true,
          List.length_cons] <;>
        omega

/-! ### Claim theorems -/

/-- C1: for every exportable memory block (initialized, in the canonical
`ram` space, size at most 1 MiB) of a host whose reads return byte values,
the emitted byte chunks (the pairs traversed by the read loop, which
`processBlock` renders one `bytechunk` element each) are in strictly
increasing offset order, each chunk's raw length is at most 64 KiB, the
chunks tile `[start, start + size)` with no gaps and no overlaps, and
concatenating the decoded bytes of all chunks in offset order reproduces the
block's original bytes exactly. -/
theorem C1_chunk_roundtrip (memBytes : Nat → Nat) (b : MemBlock)
    (hb : ∀ a, memBytes a < 256)
    (hinit : b.isInitialized = true) (hspace : b.spaceName = "ram")
    (hsize : b.size ≤ 0x100000) :
    processBlock memBytes b
        = ((chunkLoop memBytes b.start b.size 0).flatMap bytechunkLines, [])
    ∧ List.Pairwise (fun c d => c.1 < d.1) (chunkLoop memBytes b.start b.size 0)
    ∧ (∀ c ∈ chunkLoop memBytes b.start b.size 0, c.2.length ≤ 0x10000)
    ∧ Contiguous b.start (spansOf (chunkLoop memBytes b.start b.size 0))
        (b.start + b.size)
    ∧ (chunkLoop memBytes b.start b.size 0).flatMap
        (fun c => hexDecode (hex_str c.2).data) = blockBytes memBytes b := by
  refine ⟨processBlock_eligible memBytes b hinit hspace hsize, ?_, ?_, ?_, ?_⟩
  · exact chunkLoop_pairwise memBytes b.start b.size b.size 0 (by omega)
  · intro c hc
    exact (chunkLoop_mem memBytes b.start b.size b.size 0 (by omega) c hc).2.2
  · have := chunkLoop_contiguous memBytes b.start b.size b.size 0
      (by omega) (by omega)
    simpa using this
  · rw [flatMap_decode,
      chunkLoop_raw_concat memBytes b.start b.size b.size 0 (by omega)]
    show (readChunk memBytes (b.start + 0) (b.size - 0)).map (· % 256)
      = blockBytes memBytes b
    rw [Nat.add_zero, Nat.sub_zero, readChunk_mod memBytes hb]
    rfl

/-- C1 witness: the round-trip theorem instantiated at a concrete 5-byte
block of the host whose byte at `a` is `a % 256`. -/
theorem C1_chunk_roundtrip_witness :
    processBlock wMem wBlock
        = ((chunkLoop wMem wBlock.start wBlock.size 0).flatMap bytechunkLines, [])
    ∧ List.Pairwise (fun c d => c.1 < d.1) (chunkLoop wMem wBlock.start wBlock.size 0)
    ∧ (∀ c ∈ chunkLoop wMem wBlock.start wBlock.size 0, c.2.length ≤ 0x10000)
    ∧ Contiguous wBlock.start (spansOf (chunkLoop wMem wBlock.start wBlock.size 0))
        (wBlock.start + wBlock.size)
    ∧ (chunkLoop wMem wBlock.start wBlock.size 0).flatMap
        (fun c => hexDecode (hex_str c.2).data) = blockBytes wMem wBlock :=
  C1_chunk_roundtrip wMem wBlock (fun a => by simp only [wMem]; omega)
    rfl rfl (by decide)

/-- C2: for every byte sequence, the hex encoding maps each byte to exactly
two hex characters concatenated with no separators (so its length is
`2 × byteLength`), every character is a lowercase hex digit, decoding
restores the (masked) byte values, and the 64-column wrapping produces lines
of at most 64 characters whose concatenation restores the unwrapped
encoding. -/
theorem C2_hex_encoding (data : List Nat) :
    (hex_str data).data.length = 2 * data.length
    ∧ (hex_str data).data = data.flatMap byteHexChars
    ∧ (∀ b, (byteHexChars b).length = 2)
    ∧ (∀ c ∈ (hex_str data).data, isLowerHexDigit c = true)
    ∧ hexDecode (hex_str data).data = data.map (· % 256)
    ∧ (∀ l ∈ wrap64 (hex_str data).data, l.length ≤ 64)
    ∧ String.join (wrap64 (hex_str data).data) = hex_str data := by
  refine ⟨hex_str_length data, rfl, fun b => rfl, hex_str_lower data,
    hexDecode_hex_str data, ?_, ?_⟩
  · exact wrap64_line_length (hex_str data).data.length (hex_str data).data
      (Nat.le_refl _)
  · rw [join_wrap64 (hex_str data).data.length (hex_str data).data (Nat.le_refl _)]

/-- C3: for every initialized `ram` block larger than 1 MiB, no chunk lines
are emitted and exactly one diagnostic carrying the block's name, start
address and size is printed (the export continues: `processBlock` yields a
normal result rather than failing); a block of size exactly 1 MiB is
exported (its chunk lines are non-empty and no diagnostic is printed). -/
theorem C3_size_cap (memBytes : Nat → Nat) (b : MemBlock)
    (hinit : b.isInitialized = true) (hspace : b.spaceName = "ram") :
    (0x100000 < b.size →
      processBlock memBytes b
        = ([], [{ name := b.name, start := b.start, size := b.size }]))
    ∧ (b.size = 0x100000 →
      (processBlock memBytes b).1 ≠ [] ∧ (processBlock memBytes b).2 = []) := by
  constructor
  · intro hbig
    exact processBlock_oversize memBytes b hinit hspace hbig
  · intro hcap
    rw [processBlock_eligible memBytes b hinit hspace (by omega)]
    constructor
    · have hcons := chunkLoop_cons memBytes b.start b.size 0 (by omega)
      rw [hcons, List.flatMap_cons]
      simp [bytechunkLines]
    · rfl

/-- C3 witness: a 2 MiB block is skipped with its diagnostic, and a block of
exactly 1 MiB is exported. -/
theorem C3_size_cap_witness :
    processBlock wMem wBigBlock
      = ([], [{ name := wBigBlock.name, start := wBigBlock.start,
                size := wBigBlock.size }])
    ∧ ((processBlock wMem wCapBlock).1 ≠ []
        ∧ (processBlock wMem wCapBlock).2 = []) :=
  ⟨(C3_size_cap wMem wBigBlock rfl rfl).1 (by decide),
   (C3_size_cap wMem wCapBlock rfl rfl).2 rfl⟩

/-- C4: a function that is a thunk and not external and occurs once in the
function table contributes exactly one entry to the symbol-line source list
and none to the script/stringmatch source list. -/
theorem C4_thunk_symbol_only (p : Program) (f : FunctionEntry)
    (hcount : p.funcs.count f = 1)
    (ht : f.isThunk = true) (he : f.isExternal = false) :
    (symbolFuncs p).count f = 1
    ∧ f ∉ functions p
    ∧ (functions p).count f = 0 := by
  refine ⟨?_, ?_, ?_⟩
  · rw [symbolFuncs, List.count_filter (by simp [he])]
    exact hcount
  · intro hmem
    simp only [functions] at hmem
    have := (List.mem_filter.mp hmem).2
    simp [ht] at this
  · refine List.count_eq_zero.mpr (fun hmem => ?_)
    simp only [functions] at hmem
    have := (List.mem_filter.mp hmem).2
    simp [ht] at this

/-- C4 witness: the non-external thunk of the concrete program gets exactly
one symbol entry and no script entry. -/
theorem C4_thunk_symbol_only_witness :
    (symbolFuncs wProg).count wThunk = 1
    ∧ wThunk ∉ functions wProg
    ∧ (functions wProg).count wThunk = 0 :=
  C4_thunk_symbol_only wProg wThunk (by decide) rfl rfl

/-- C5: an external function contributes neither to the symbol-line source
list nor to the script/stringmatch source list. -/
theorem C5_external_excluded (p : Program) (f : FunctionEntry)
    (he : f.isExternal = true) :
    f ∉ symbolFuncs p ∧ f ∉ functions p := by
  constructor
  · intro hmem
    simp only [symbolFuncs] at hmem
    have := (List.mem_filter.mp hmem).2
    simp [he] at this
  · intro hmem
    simp only [functions] at hmem
    have := (List.mem_filter.mp hmem).2
    simp [he] at this

/-- C5 witness: the external function of the concrete program appears in
neither list. -/
theorem C5_external_excluded_witness :
    wExternal ∉ symbolFuncs wProg ∧ wExternal ∉ functions wProg :=
  C5_external_excluded wProg wExternal rfl

/-- C6: for every program model, the produced document is exactly: the
opening document tag, the opening `binaryimage` tag carrying
`languageId:compilerSpecId`, all byte-chunk blocks in block-iteration order,
all symbol lines, the closing `binaryimage` tag, one script block (with the
four commands `lo fu NAME`, `decompile`, `print C`, `quit`, in that order)
followed immediately by its `stringmatch` (requiring the function's own name,
`min="1" max="100"`) per exportable function in function-iteration order, and
the closing document tag. -/
theorem C6_document_order (p : Program) :
    xmlLines p
      = ["<decompilertest>",
         "<binaryimage arch=\"" ++ p.langId ++ ":" ++ p.cspecId ++ "\">"]
        ++ p.blocks.flatMap (fun b => (processBlock p.memBytes b).1)
        ++ (symbolFuncs p).map symbolLine
        ++ ["</binaryimage>"]
        ++ (functions p).flatMap (fun f =>
            ["<script>",
             "  <com>lo fu " ++ f.name ++ "</com>",
             "  <com>decompile</com>",
             "  <com>print C</com>",
             "  <com>quit</com>",
             "</script>",
             "<stringmatch name=\"" ++ f.name ++ " output\" min=\"1\" max=\"100\">"
               ++ f.name ++ "</stringmatch>"])
        ++ ["</decompilertest>"] := by
  rw [xmlLines_decomp]
  rfl

/-- C7 (claim fails on the code): the source embeds the raw function name
with no escaping.  For the function named `a<b` — which contains characters
meaningful in the output text format — the emitted symbol line, script
command and stringmatch block all contain the name unescaped. -/
theorem C7_name_not_escaped :
    xmlLines metaNameProg
      = ["<decompilertest>",
         "<binaryimage arch=\"x86:gcc\">",
         "<symbol space=\"ram\" offset=\"0x0\" name=\"a<b\"/>",
         "</binaryimage>",
         "<script>",
         "  <com>lo fu a<b</com>",
         "  <com>decompile</com>",
         "  <com>print C</com>",
         "  <com>quit</com>",
         "</script>",
         "<stringmatch name=\"a<b output\" min=\"1\" max=\"100\">a<b</stringmatch>",
         "</decompilertest>"] := by
  decide

/-- C8 (claim fails on the code): a program with two empty (and therefore
colliding) function names exports without any error — the code has no
anomaly check — and the fixture document embeds the empty names verbatim. -/
theorem C8_anomalies_not_fatal :
    xmlLines emptyNameProg
      = ["<decompilertest>",
         "<binaryimage arch=\"x86:gcc\">",
         "<symbol space=\"ram\" offset=\"0x0\" name=\"\"/>",
         "<symbol space=\"ram\" offset=\"0x0\" name=\"\"/>",
         "</binaryimage>",
         "<script>",
         "  <com>lo fu </com>",
         "  <com>decompile</com>",
         "  <com>print C</com>",
         "  <com>quit</com>",
         "</script>",
         "<stringmatch name=\" output\" min=\"1\" max=\"100\"></stringmatch>",
         "<script>",
         "  <com>lo fu </com>",
         "  <com>decompile</com>",
         "  <com>print C</com>",
         "  <com>quit</com>",
         "</script>",
         "<stringmatch name=\" output\" min=\"1\" max=\"100\"></stringmatch>",
         "</decompilertest>"] := by
  decide

/-- C9: the chunk read loop of an eligible block of any size terminates
after exactly `⌈size / CHUNK⌉` iterations, each iteration strictly
increasing the offset; an eligible block of size 0 yields zero chunks and
the export continues normally (no lines, no diagnostics). -/
theorem C9_loop_terminates (memBytes : Nat → Nat) (b : MemBlock)
    (hinit : b.isInitialized = true) (hspace : b.spaceName = "ram") :
    (chunkLoop memBytes b.start b.size 0).length = (b.size + CHUNK - 1) / CHUNK
    ∧ List.Pairwise (fun c d => c.1 < d.1) (chunkLoop memBytes b.start b.size 0)
    ∧ (b.size = 0 →
        chunkLoop memBytes b.start b.size 0 = []
        ∧ processBlock memBytes b = ([], [])) := by
  refine ⟨?_, chunkLoop_pairwise memBytes b.start b.size b.size 0 (by omega), ?_⟩
  · have := chunkLoop_length_eq memBytes b.start b.size b.size 0 (by omega)
    simpa using this
  · intro h0
    constructor
    · exact chunkLoop_nil memBytes b.start b.size 0 (by omega)
    · rw [processBlock_eligible memBytes b hinit hspace (by omega),
        chunkLoop_nil memBytes b.start b.size 0 (by omega)]
      rfl

/-- C9 witness: the loop theorem instantiated at the concrete eligible block
of size zero. -/
theorem C9_loop_terminates_witness :
    (chunkLoop wMem wZeroBlock.start wZeroBlock.size 0).length
        = (wZeroBlock.size + CHUNK - 1) / CHUNK
    ∧ List.Pairwise (fun c d => c.1 < d.1)
        (chunkLoop wMem wZeroBlock.start wZeroBlock.size 0)
    ∧ (wZeroBlock.size = 0 →
        chunkLoop wMem wZeroBlock.start wZeroBlock.size 0 = []
        ∧ processBlock wMem wZeroBlock = ([], [])) :=
  C9_loop_terminates wMem wZeroBlock rfl rfl

/-- C10: the function count printed in the final summary equals the number
of `<script>` blocks emitted, and whenever the program contains a
non-external thunk it is strictly smaller than the number of symbol lines. -/
theorem C10_summary_counts (p : Program) :
    (summary p).2 = ((functions p).flatMap scriptLines).count "<script>"
    ∧ (∀ f ∈ p.funcs, f.isThunk = true → f.isExternal = false →
        (summary p).2 < ((symbolFuncs p).map symbolLine).length) := by
  constructor
  · rw [flatMap_scriptLines_count]
    rfl
  · intro f hf ht he
    rw [List.length_map]
    show (functions p).length < (symbolFuncs p).length
    exact filter_thunk_lt p.funcs f hf ht he

/-- C10 witness: in the concrete program (which contains a non-external
thunk) the printed count equals the script-block count and is strictly
smaller than the symbol-line count. -/
theorem C10_summary_counts_witness :
    (summary wProg).2 = ((functions wProg).flatMap scriptLines).count "<script>"
    ∧ (summary wProg).2 < ((symbolFuncs wProg).map symbolLine).length :=
  ⟨(C10_summary_counts wProg).1,
   (C10_summary_counts wProg).2 wThunk (by decide) rfl rfl⟩

end GhidraExport
